import Mathlib

/-!
A shallow embedding of the DataSet layer of `pbcore/io/dataset/DataSetIO.py`
(the DataSet lifecycle: copy / equality / merge, cache invalidation, the
round-robin chunker and the default split mode, the k-way sorted merge of
range queries, the pbi "longest reads first" ordering, and buffered record
materialization), together with theorems settling the frozen claims.

Modelling conventions:
* Python dictionaries holding object metadata are modelled by a structure of
  the keys the code under scrutiny reads (`UniqueId`, `Name`, `Version`),
  each an `Option` to reflect `dict.get` returning `None` for absent keys.
* The MD5 digest of the canonical core XML is modelled as an injective
  encoding into `Nat` built from `Nat.pair` (a collision-free digest); the
  8-4-4-4-12 hex grouping of the digest is abstracted away.  The `newUuid`
  docstring in the source records that the previous `UniqueId` is *not*
  stripped from the hashed core document, so the encoding pairs the current
  `UniqueId` with the encoding of resources, filters and subdatasets.
* Members defined in `DataSetMembers.py` (not part of the sources given:
  only `DataSetIO.py` is) are modelled from the spec where the claims need
  them; each such definition carries a `Modelled from the spec:` comment.
-/

namespace PbCore

/-- One `(name, operator, value)` filter parameter test, e.g. `rq > 0.85`. -/
structure FilterReq where
  name : String
  op : String
  value : String
deriving DecidableEq, Repr

/-- One AND-group of filter parameter tests. -/
abbrev FilterGroup := List FilterReq

/-- The OR-of-AND filter structure: a list of filter groups. -/
abbrev Filters := List FilterGroup

/-- A compiled filter predicate as cached in `_cachedFilters`.  The source
caches Python callables; the claims only inspect whether the cache has been
invalidated (reset to `[]`), so the compiled form is kept symbolic. -/
inductive CompiledFilter where
  | alwaysTrue
  | group (g : FilterGroup)
deriving DecidableEq, Repr

/-- One external file reference.  `size` models `len(resource)` (the record
length used as the default balance key of `split`; `__len__` lives in the
missing `DataSetMembers.py`). -/
structure ExternalResource where
  resourceId : String
  size : Nat
deriving DecidableEq, Repr

/-- The object metadata dictionary (`self.objMetadata`), restricted to the
keys the modelled operations read.  `none` models an absent key. -/
structure ObjMetadata where
  uniqueId : Option Nat
  name : Option String
  version : Option String
deriving DecidableEq, Repr

/-- Content metadata (`self.metadata`): record counts plus a flag modelling
the presence of a `SummaryStats` child. -/
structure ContentMetadata where
  numRecords : Int
  totalLength : Int
  hasSummaryStats : Bool
deriving DecidableEq, Repr

/-- The non-recursive fields of a DataSet.  `dsType` models
`self.__class__.__name__`; `cachedFilters`, `index` and `indexMap` model the
lazy caches `_cachedFilters`, `_index` and `_indexMap` (the index caches are
kept as opaque tokens: the claims only observe whether they are `None`). -/
structure DSFields where
  dsType : String
  objMetadata : ObjMetadata
  metadata : ContentMetadata
  externalResources : List ExternalResource
  filters : Filters
  cachedFilters : List CompiledFilter
  index : Option Nat
  indexMap : Option Nat
deriving DecidableEq, Repr

/-- A DataSet: its scalar fields plus the (one-level-flattened, but in
principle recursive) list of subdatasets. -/
inductive DataSet where
  | mk (fields : DSFields) (subdatasets : List DataSet)

def DataSet.fields : DataSet → DSFields
  | .mk f _ => f

def DataSet.subdatasets : DataSet → List DataSet
  | .mk _ s => s

def DataSet.withFields (d : DataSet) (f : DSFields) : DataSet :=
  .mk f d.subdatasets

def DataSet.dsType (d : DataSet) : String := d.fields.dsType

def DataSet.objMetadata (d : DataSet) : ObjMetadata := d.fields.objMetadata

def DataSet.metadata (d : DataSet) : ContentMetadata := d.fields.metadata

def DataSet.externalResources (d : DataSet) : List ExternalResource :=
  d.fields.externalResources

def DataSet.filters (d : DataSet) : Filters := d.fields.filters

def DataSet.cachedFilters (d : DataSet) : List CompiledFilter :=
  d.fields.cachedFilters

def DataSet.index (d : DataSet) : Option Nat := d.fields.index

def DataSet.indexMap (d : DataSet) : Option Nat := d.fields.indexMap

/-- `self.uuid`, i.e. `self.objMetadata.get('UniqueId')`. -/
def DataSet.uuid (d : DataSet) : Option Nat := d.objMetadata.uniqueId

/-! ### The core-XML digest (`newUuid`, `__eq__`, `copy`) -/

/-- Encoding of an optional digest value (injective). -/
def optNatEnc : Option Nat → Nat
  | none => 0
  | some n => n + 1

/-- Encoding of a string into `Nat` (models the serialized bytes of one
XML attribute). -/
def strEnc (s : String) : Nat :=
  s.foldl (fun a c => Nat.pair a c.toNat + 1) 1

/-- Encoding of a list of encoded components. -/
def natListEnc : List Nat → Nat
  | [] => 0
  | x :: xs => Nat.pair x (natListEnc xs) + 1

def resEnc (r : ExternalResource) : Nat :=
  Nat.pair (strEnc r.resourceId) r.size

def reqEnc (p : FilterReq) : Nat :=
  Nat.pair (strEnc p.name) (Nat.pair (strEnc p.op) (strEnc p.value))

def groupEnc (g : FilterGroup) : Nat := natListEnc (g.map reqEnc)

/-- Modelled from the spec: the canonical "core" XML serialization hashed by
`newUuid` (`toXml(self, core=True)` lives in `DataSetWriter.py`, which is
not among the given sources).  Per the spec it covers the resources, filters
and subdatasets; per the `newUuid` docstring in `DataSetIO.py`, user-setable
fields are stripped but the previous `UniqueId` is not.  The serialization
composed with MD5 is modelled as one injective-in-the-UniqueId encoding into
`Nat` (an idealized collision-free digest). -/
def coreEnc : DataSet → Nat
  | .mk f subs =>
      Nat.pair (optNatEnc f.objMetadata.uniqueId)
        (Nat.pair (natListEnc (f.externalResources.map resEnc))
          (Nat.pair (natListEnc (f.filters.map groupEnc))
            (natListEnc (subs.attach.map fun s => coreEnc s.1))))
decreasing_by
  rename_i subs0
  cases s with
  | mk v hv =>
    have h1 : sizeOf v < sizeOf subs0 := List.sizeOf_lt_of_mem hv
    simp only [DataSet.mk.sizeOf_spec]
    omega

/-- `newUuid(setter=False)`: the digest of the core document, without
mutating the DataSet. -/
def DataSet.newUuidVal (d : DataSet) : Nat := coreEnc d

/-- `newUuid()`: compute the digest of the core document and store it as the
new `UniqueId`. -/
def DataSet.newUuid (d : DataSet) : DataSet :=
  d.withFields { d.fields with
    objMetadata := { d.fields.objMetadata with uniqueId := some d.newUuidVal } }

/-- `copy()` without a cast: `copy.deepcopy(self)` (pure values, so the
deep copy is the value itself) followed by `result.newUuid()`. -/
def DataSet.copy (d : DataSet) : DataSet := d.newUuid

/-- `__eq__`: compare the core-document digests of the two DataSets
(`newUuid(setter=False)` on both sides). -/
def dsEq (a b : DataSet) : Bool := a.newUuidVal == b.newUuidVal

/-- A concrete DataSet used by counterexamples and witnesses. -/
def sampleDS : DataSet :=
  .mk { dsType := "AlignmentSet"
        objMetadata := { uniqueId := some 7, name := some "n",
                         version := some "3.0.1" }
        metadata := { numRecords := 2, totalLength := 10,
                      hasSummaryStats := false }
        externalResources := [{ resourceId := "b", size := 2 }]
        filters := []
        cachedFilters := []
        index := none
        indexMap := none } []

/-! ### Merge (`DataSet.merge`, `_checkObjMetadata`, cache invalidation) -/

/-- Truthiness of `self.objMetadata.get('Version')` in Python: the key must
be present and its value a non-empty string. -/
def versionTruthy : Option String → Bool
  | none => false
  | some v => !(v == "")

/-- Python 2 `>` on two `dict.get('Version')` results: `None` compares
below every string, and strings compare lexicographically (byte-wise;
modelled on the character list of the string). -/
def pyVersionGt : Option String → Option String → Bool
  | none, _ => false
  | some _, none => true
  | some a, some b => decide (b.data < a.data)

/-- `_checkObjMetadata`: raises `ValueError` (modelled as `true`) exactly
when this DataSet declares a truthy `Version` and the incoming metadata's
`Version` is strictly greater. -/
def checkObjMetadataBlocks (selfMeta newMeta : ObjMetadata) : Bool :=
  versionTruthy selfMeta.version &&
    pyVersionGt newMeta.version selfMeta.version

/-- `dict.update`: entries of `b` overwrite those of `a`; keys absent from
`b` keep the value from `a`. -/
def ObjMetadata.update (a b : ObjMetadata) : ObjMetadata :=
  { uniqueId := b.uniqueId <|> a.uniqueId
    name := b.name <|> a.name
    version := b.version <|> a.version }

/-- Modelled from the spec: `Filters.testCompatibility` lives in the missing
`DataSetMembers.py`.  The spec says two Filters sets are compatible for
merge only under specific equality rules, and the merge source comments
that DataSets may only be merged if they have identical filters, so
compatibility is modelled as equality of the filter-group lists. -/
def testCompatibility (a b : Filters) : Bool := decide (a = b)

/-- Modelled from the spec: `Filters.merge` lives in the missing
`DataSetMembers.py`; the spec says Filters merge by union of groups. -/
def Filters.mergeGroups (a b : Filters) : Filters :=
  a ++ b.filter (fun g => decide (¬ g ∈ a))

/-- Modelled from the spec: `ExternalResources.merge`/`addResources` live in
the missing `DataSetMembers.py`; the spec says resources are unioned with
resourceId-based dedup, first-wins, silently skipping duplicates. -/
def mergeResources (a b : List ExternalResource) :
    List ExternalResource :=
  b.foldl
    (fun acc r =>
      if acc.any (fun x => x.resourceId == r.resourceId) then acc
      else acc ++ [r]) a

/-- Modelled from the spec: `DataSetMetadata.merge` lives in the missing
`DataSetMembers.py`; the spec's merge scenario sums record counts and total
lengths of the two operands. -/
def ContentMetadata.mergeMeta (a b : ContentMetadata) : ContentMetadata :=
  { numRecords := a.numRecords + b.numRecords
    totalLength := a.totalLength + b.totalLength
    hasSummaryStats := a.hasSummaryStats || b.hasSummaryStats }

/-- `reFilter(light)`: the caches `_cachedFilters`, `_index` and `_indexMap`
are invalidated; a non-light refilter additionally degrades the counts to
the `-1` sentinels and drops the `SummaryStats` subtree. -/
def DataSet.reFilter (d : DataSet) (light : Bool) : DataSet :=
  let f1 := { d.fields with cachedFilters := ([] : List CompiledFilter),
                            index := none, indexMap := none }
  if light then d.withFields f1
  else d.withFields { f1 with
    metadata := { numRecords := -1, totalLength := -1,
                  hasSummaryStats := false } }

/-- `addFilters(newFilters, underConstruction)`: merge the new groups into
this DataSet's filters, then `reFilter(light=underConstruction)`. -/
def DataSet.addFilters (d : DataSet) (new : Filters)
    (underConstruction : Bool) : DataSet :=
  (d.withFields
    { d.fields with filters := Filters.mergeGroups d.filters new }).reFilter
    underConstruction

/-- `updateCounts` of the abstract base class: degrade both counts to the
`-1` sentinel. -/
def DataSet.updateCounts (d : DataSet) : DataSet :=
  d.withFields { d.fields with
    metadata :=
      { d.fields.metadata with numRecords := -1, totalLength := -1 } }

/-- `addExternalResources(newExtResources, updateCount)`: dedup-union the
resources; with `updateCount` the base class resets the counts.  Note that
no cache field is touched. -/
def DataSet.addExternalResources (d : DataSet)
    (rs : List ExternalResource) (updateCount : Bool) : DataSet :=
  let d1 := d.withFields { d.fields with
    externalResources := mergeResources d.externalResources rs }
  if updateCount then d1.updateCounts else d1

/-- `addDatasets(otherDataSet)`: absorb the other DataSet's subdatasets if
it has any (flattening), otherwise append the other DataSet itself.  Note
that no cache field is touched. -/
def DataSet.addDatasets (d other : DataSet) : DataSet :=
  if other.subdatasets.isEmpty then .mk d.fields (d.subdatasets ++ [other])
  else .mk d.fields (d.subdatasets ++ other.subdatasets)

/-- `addMetadata(newMetadata)` as invoked from `merge`: merge the incoming
content metadata into this DataSet's (both records present on the merge
path). -/
def DataSet.addMetadata (d : DataSet) (new : ContentMetadata) : DataSet :=
  d.withFields { d.fields with
    metadata := ContentMetadata.mergeMeta d.metadata new }

/-- The type gate of `merge`: same concrete class name, or either side is
the abstract base `DataSet`. -/
def typeCompatible (a b : DataSet) : Bool :=
  a.dsType == b.dsType || b.dsType == "DataSet" || a.dsType == "DataSet"

/-- The observable outcome of `DataSet.merge`: a normal return carrying the
receiver's final state and the returned object, a `None` return (filter
incompatibility), a raised `ValueError` (version check) carrying the
receiver's already-mutated state, or a raised `TypeError`. -/
inductive MergeOutcome where
  | ok (self : DataSet) (result : DataSet)
  | blocked (self : DataSet)
  | versionError (self : DataSet)
  | typeError

def MergeOutcome.isOk : MergeOutcome → Bool
  | .ok _ _ => true
  | _ => false

def MergeOutcome.isBlocked : MergeOutcome → Bool
  | .blocked _ => true
  | _ => false

def MergeOutcome.isVersionError : MergeOutcome → Bool
  | .versionError _ => true
  | _ => false

/-- The receiver's state at the version check: the other's filters have
been merged in place (`addFilters(..., underConstruction=True)`) and the
compiled-filter cache has been reset. -/
def DataSet.mergePreCheck (self other : DataSet) : DataSet :=
  let s1 := self.addFilters other.filters true
  s1.withFields { s1.fields with
    cachedFilters := ([] : List CompiledFilter) }

/-- The receiver's state after `self.objMetadata.update(other.objMetadata)`
(the last mutation applied to the receiver before the result copy is
taken). -/
def DataSet.mergedReceiver (self other : DataSet) : DataSet :=
  let s2 := self.mergePreCheck other
  s2.withFields { s2.fields with
    objMetadata := ObjMetadata.update s2.objMetadata other.objMetadata }

/-- The additions applied to the returned result object after the receiver
has been mutated: subdatasets (the flattening stopgap), content metadata
(replaced on a first-populating merge, merged otherwise) and the
dedup-union of external resources. -/
def DataSet.mergeResult (s3 other : DataSet)
    (copyOnMerge firstIn : Bool) : DataSet :=
  let r0 := if copyOnMerge then s3.copy else s3
  let r1 := if s3.subdatasets.isEmpty && !firstIn then
      r0.addDatasets s3.copy
    else r0
  let r2 := if !other.subdatasets.isEmpty || !firstIn then
      r1.addDatasets other.copy
    else r1
  let r3 := if firstIn then
      r2.withFields { r2.fields with metadata := other.metadata }
    else r2.addMetadata other.metadata
  r3.addExternalResources other.externalResources false

/-- `merge(self, other, copyOnMerge)`, with the receiver's mutations made
explicit by state passing.  The source mutates `self` (filters, filter
cache, objMetadata) *before* taking the copy that becomes the returned
result; with `copyOnMerge=False` the returned result is the receiver
itself, so all further additions land on it. -/
def DataSet.merge (self other : DataSet) (copyOnMerge : Bool) :
    MergeOutcome :=
  if typeCompatible self other then
    let firstIn := self.externalResources.isEmpty
    if !firstIn && !(testCompatibility self.filters other.filters) then
      MergeOutcome.blocked self
    else
      let s2 := self.mergePreCheck other
      if checkObjMetadataBlocks s2.objMetadata other.objMetadata then
        MergeOutcome.versionError s2
      else
        let s3 := self.mergedReceiver other
        let r4 := s3.mergeResult other copyOnMerge firstIn
        if copyOnMerge then MergeOutcome.ok s3 r4
        else MergeOutcome.ok r4 r4
  else MergeOutcome.typeError

/-- A small DataSet builder for concrete counterexamples and witnesses:
type name, UniqueId, Version, resources and filters; empty caches, zero
counts, no subdatasets. -/
def simpleDS (ty : String) (uid : Option Nat) (ver : Option String)
    (res : List ExternalResource) (filts : Filters) : DataSet :=
  .mk { dsType := ty
        objMetadata := { uniqueId := uid, name := none, version := ver }
        metadata := { numRecords := 0, totalLength := 0
                      hasSummaryStats := false }
        externalResources := res
        filters := filts
        cachedFilters := []
        index := none
        indexMap := none } []

/-- A one-group filter set used by concrete inputs. -/
def rqFilter : Filters := [[{ name := "rq", op := ">", value := "0.85" }]]

/-! ### Cache invalidation (C4) -/

/-- A concrete DataSet with all three caches populated. -/
def cachedDS : DataSet :=
  .mk { dsType := "AlignmentSet"
        objMetadata := { uniqueId := some 9, name := none, version := none }
        metadata := { numRecords := 4, totalLength := 40
                      hasSummaryStats := false }
        externalResources := [{ resourceId := "a", size := 2 }]
        filters := []
        cachedFilters := [CompiledFilter.alwaysTrue]
        index := some 5
        indexMap := some 6 } []

/-! ### The round-robin bin-packing chunker (`_chunkList`) and the default
split mode (C5, C6).

Python's stable `list.sort()`/`sorted(...)` is modelled by
`List.insertionSort` (also stable); the `chunkSizes` entries are `[load,
index]` pairs compared lexicographically, exactly as Python compares
two-element lists of integers. -/

/-- Lexicographic order on the `[load, chunkIndex]` accounting pairs, the
order in which Python's `chunkSizes.sort()` sorts them. -/
def pairLeP (a b : Nat × Nat) : Prop :=
  a.1 < b.1 ∨ (a.1 = b.1 ∧ a.2 ≤ b.2)

instance : DecidableRel pairLeP := fun a b => by
  unfold pairLeP; exact inferInstance

instance : IsTotal (Nat × Nat) pairLeP :=
  ⟨fun a b => by unfold pairLeP; omega⟩

instance : IsTrans (Nat × Nat) pairLeP :=
  ⟨fun a b c => by unfold pairLeP; omega⟩

/-- The descending-by-key order used by
`sorted(inlist, key=balanceKey, reverse=True)`. -/
def keyGe (key : α → Nat) (a b : α) : Prop := key b ≤ key a

instance (key : α → Nat) : DecidableRel (keyGe key) := fun a b => by
  unfold keyGe; exact inferInstance

instance (key : α → Nat) : IsTotal α (keyGe key) :=
  ⟨fun a b => by unfold keyGe; omega⟩

instance (key : α → Nat) : IsTrans α (keyGe key) :=
  ⟨fun a b c => by unfold keyGe; omega⟩

/-- One iteration of the `_chunkList` loop: re-sort the accounting list,
append the item to the emptiest bin, and charge that bin the item's mass
(a zero mass counts as `1`). -/
def chunkStep (key : α → Nat)
    (st : List (List α) × List (Nat × Nat)) (item : α) :
    List (List α) × List (Nat × Nat) :=
  match st.2.insertionSort pairLeP with
  | [] => st
  | (load, j) :: rest =>
      (st.1.set j (st.1.getD j [] ++ [item]),
        (load + (if key item = 0 then 1 else key item), j) :: rest)

/-- The initial state of `_chunkList`: `chunknum` empty bins and one
`[0, i]` accounting pair per bin. -/
def chunkInit (α : Type _) (chunknum : Nat) :
    List (List α) × List (Nat × Nat) :=
  (List.replicate chunknum ([] : List α),
    (List.range chunknum).map fun i => (0, i))

/-- `_chunkList(inlist, chunknum, balanceKey)`: sort the atoms descending
by key, then fold the greedy lightest-bin assignment over them. -/
def chunkList (inlist : List α) (chunknum : Nat) (key : α → Nat) :
    List (List α) :=
  ((inlist.insertionSort (keyGe key)).foldl (chunkStep key)
    (chunkInit α chunknum)).1

/-- The state invariant of the chunker loop: `chunknum` bins, accounting
pairs carrying each bin index exactly once, and a bin is empty exactly
when its recorded load is zero. -/
def ChunkInv (K : Nat) (st : List (List α) × List (Nat × Nat)) : Prop :=
  st.1.length = K ∧
  (st.2.map Prod.snd).Perm (List.range K) ∧
  ∀ p ∈ st.2, (p.1 = 0 ↔ st.1.getD p.2 [] = [])

/-- The number of still-empty bins according to the accounting list. -/
def zeroCount (l : List (Nat × Nat)) : Nat :=
  l.countP (fun p => p.1 == 0)

/-! ### The default (by-resource) split mode (C6) -/

/-- Replace the external resource list of a chunk
(`result.externalResources.resources = copy.deepcopy(chunk)`). -/
def DataSet.setResources (d : DataSet) (rs : List ExternalResource) :
    DataSet :=
  d.withFields { d.fields with externalResources := rs }

/-- `split(chunks)` in the default mode (no contig/zmw/barcode splitting,
subdatasets ignored): cap the chunk count at the resource count (also when
`chunks == 0`), short-circuit a single chunk to `[self.copy()]`, otherwise
deep-copy the DataSet per chunk, give each copy its `_chunkList` share of
the resources (balance key `len(resource)`, modelled by the `size` field)
and regenerate every UniqueId afterwards. -/
def DataSet.split (d : DataSet) (chunks : Nat) : List DataSet :=
  let atoms := d.externalResources
  let chunks := if chunks = 0 ∨ atoms.length < chunks then atoms.length
    else chunks
  if chunks = 1 then [d.copy]
  else
    let results := List.replicate chunks d.copy
    let chunked := chunkList atoms chunks (fun r => r.size)
    ((results.zip chunked).map fun rc => rc.1.setResources rc.2).map
      DataSet.newUuid

/-! ### Non-indexed multi-resource `readsInRange`: the k-way merge by
`tStart` (C7).

The merge loop of `readsInRange` (buffer size 1; the deep-buffer variant
consumes the same per-resource iterators in the same order) keeps one
buffered record per live resource, always yields the buffered record with
the smallest `tStart` (first such resource on ties, like
`tStarts.index(min(tStarts))`), refills that buffer from its iterator and
drops the resource once its iterator is exhausted. -/

/-- An alignment record as seen by the merge: its `tStart` plus an opaque
payload distinguishing records. -/
structure AlnRecord where
  tStart : Nat
  payload : Nat
deriving DecidableEq, Repr

instance : Inhabited AlnRecord := ⟨⟨0, 0⟩⟩

/-- A live resource in the merge loop: the buffered current record and the
rest of its iterator. -/
abbrev RRStream := AlnRecord × List AlnRecord

/-- Python's `min` on a non-empty list of numbers (`0` on the empty list,
which the loop never queries). -/
def minNat : List Nat → Nat
  | [] => 0
  | x :: xs => xs.foldl min x

/-- All records still owed by the streams, per stream in order. -/
def flattenStreams (ss : List RRStream) : List AlnRecord :=
  (ss.map fun s => s.1 :: s.2).flatten

/-- The termination measure: total number of records still buffered or
pending. -/
def kwayMergeSize (ss : List RRStream) : Nat :=
  (ss.map fun s => s.2.length + 1).sum

/-- Advance the selected stream: refill its buffer from its iterator
(`currents[first_i] = next(read_its[first_i])`) or drop the stream
(`del read_its[first_i]` etc.) when the iterator is exhausted. -/
def advance (ss : List RRStream) (i : Nat) : List RRStream :=
  match (ss.getD i default).2 with
  | c :: cs => ss.set i (c, cs)
  | [] => ss.eraseIdx i

/-- The merge loop, with the number of remaining records as structural
fuel (each iteration yields exactly one record, so `kwayMergeSize`
iterations always suffice; `kwayMerge` below supplies exactly that much).
One iteration: take the first resource whose buffered `tStart` is the
minimum (`first_i = tStarts.index(min(tStarts))`), yield its buffered
record and advance that resource. -/
def kwayMergeFuel : Nat → List RRStream → List AlnRecord
  | 0, _ => []
  | fuel + 1, ss =>
    if ss.isEmpty then []
    else
      let ts := ss.map fun s => s.1.tStart
      let i := ts.findIdx fun t => t == minNat ts
      (ss.getD i default).1 :: kwayMergeFuel fuel (advance ss i)

/-- The k-way merge of `readsInRange` over the live per-resource
sub-iterators. -/
def kwayMerge (ss : List RRStream) : List AlnRecord :=
  kwayMergeFuel (kwayMergeSize ss) ss

/-- Build the initial stream states from the per-resource
`rr.readsInRange(...)` record sequences, dropping resources that are
exhausted from the start (`read_its`/`currents` filtering). -/
def initStreams (lists : List (List AlnRecord)) : List RRStream :=
  lists.filterMap fun l =>
    match l with
    | [] => none
    | c :: cs => some (c, cs)

/-- The multi-resource, non-indexed `readsInRange` path: k-way merge of the
per-resource range query results. -/
def readsInRangeMerge (lists : List (List AlnRecord)) : List AlnRecord :=
  kwayMerge (initStreams lists)

/-- Records in nondecreasing `tStart` order. -/
def recLe (a b : AlnRecord) : Prop := a.tStart ≤ b.tStart

instance : DecidableRel recLe := fun a b => by
  unfold recLe; exact inferInstance

/-! ### Indexed `readsInRange` with `longest=True` (C8).

`_pbiReadsInRange` computes each passing record's length clipped to the
query window, *reverses* the keys (`lens = (end - start) - lens`, so that
an ascending argsort is a descending sort by clipped length and a stable
ascending argsort is ties-stable), and then picks the sort algorithm: with
`sampleSize != 0`, if the count of the minimum of the *reversed* keys (=
the maximal clipped length group) exceeds `sampleSize` it uses the cheap
unstable `argsort`, otherwise the stable mergesort.  Both argsorts order by
the same key, so both are modelled extensionally by the stable sort; the
algorithm choice itself is modelled by `usesStableSort`. -/

/-- A pbi index row: reference id and the aligned start/end coordinates. -/
structure IdxRow where
  tId : Nat
  tStart : Nat
  tEnd : Nat
deriving DecidableEq, Repr

/-- `_indexReadsInRange`: the passing rows, paired with their `_indexMap`
token (so `mapPasses = self._indexMap[passes]` stays aligned). -/
def indexPasses (desiredTid start stop : Nat)
    (entries : List (IdxRow × Nat)) : List (IdxRow × Nat) :=
  entries.filter fun e =>
    decide (e.1.tId = desiredTid) && decide (e.1.tStart < stop) &&
      decide (start < e.1.tEnd)

/-- `lengthInWindow`: the record length clipped to the query window
(`ends[post] = end; starts[pre] = start; ends - starts`). -/
def lengthInWindow (start stop : Nat) (r : IdxRow) : Nat :=
  min r.tEnd stop - max r.tStart start

/-- The reversed sort keys (`lens = (end - start) - lens`). -/
def revKeys (start stop : Nat) (passes : List (IdxRow × Nat)) :
    List Nat :=
  passes.map fun e => (stop - start) - lengthInWindow start stop e.1

/-- `count_min`: the cardinality of the minimum of the reversed keys
(`Counter(lens)[min(lens)]`), `0` on an empty pass list. -/
def countMinRev (lens : List Nat) : Nat :=
  if lens = [] then 0 else lens.count (minNat lens)

/-- The sort-algorithm choice of `_pbiReadsInRange(longest=True)`: the
stable mergesort argsort, unless `sampleSize != 0` and
`count_min > sampleSize`, in which case the unstable default argsort. -/
def usesStableSort (start stop : Nat) (passes : List (IdxRow × Nat))
    (sampleSize : Nat) : Bool :=
  if sampleSize = 0 then true
  else decide (countMinRev (revKeys start stop passes) ≤ sampleSize)

/-- The claim's selection predicate, stated from the spec's words: the
cheap unstable sort is substituted when the cardinality of the
minimum-length group is below the sampling threshold. -/
def claimedUnstableSort (start stop : Nat) (passes : List (IdxRow × Nat))
    (sampleSize : Nat) : Bool :=
  let lens := passes.map fun e => lengthInWindow start stop e.1
  decide ((if lens = [] then 0 else lens.count (minNat lens)) < sampleSize)

/-- The ascending lexicographic order on (reversed key, original position)
that the stable argsort realizes. -/
def revLexLe (start stop : Nat) (a b : Nat × (IdxRow × Nat)) : Prop :=
  ((stop - start) - lengthInWindow start stop a.2.1 <
    (stop - start) - lengthInWindow start stop b.2.1) ∨
  (((stop - start) - lengthInWindow start stop a.2.1 =
    (stop - start) - lengthInWindow start stop b.2.1) ∧ a.1 ≤ b.1)

instance (start stop : Nat) : DecidableRel (revLexLe start stop) :=
  fun a b => by unfold revLexLe; exact inferInstance

instance (start stop : Nat) :
    IsTotal (Nat × (IdxRow × Nat)) (revLexLe start stop) :=
  ⟨fun a b => by unfold revLexLe; omega⟩

instance (start stop : Nat) :
    IsTrans (Nat × (IdxRow × Nat)) (revLexLe start stop) :=
  ⟨fun a b c => by unfold revLexLe; omega⟩

/-- `mapPasses[sort_order]` for `longest=True`: the passing entries
reordered by the (ties-stable) ascending argsort of the reversed keys,
i.e. in nonincreasing clipped-length order with ties kept in index
order. -/
def pbiLongestOrder (start stop : Nat) (passes : List (IdxRow × Nat)) :
    List (IdxRow × Nat) :=
  (passes.enum.insertionSort (revLexLe start stop)).map Prod.snd

/-! ### `_getRecords`: buffered vs one-at-a-time record materialization
(C9).

`fetch r c` models `self.resourceReaders()[r].atRowNumber(c)`.  The
buffered path fills `reqCache` (per-reader ordered row requests) and
`fromCache` (the reader of each request, in request order) until
`buffsize` requests are pending, then `debuf` fetches each reader's rows
in order and replays them in `fromCache` order. -/

/-- The `buffsize == 1` path: fetch and yield one record per index
tuple, in order. -/
def getRecordsSimple (fetch : Nat → Nat → α)
    (indexList : List (Nat × Nat)) : List α :=
  indexList.map fun p => fetch p.1 p.2

/-- Split a list into consecutive batches (`cacheFill >= buffsize`
flushes, so batches have `max buffsize 1` elements, the final one
possibly fewer). -/
def chunksOf (b : Nat) : List β → List (List β)
  | [] => []
  | x :: xs =>
    ((x :: xs).take (max b 1)) :: chunksOf b ((x :: xs).drop (max b 1))
termination_by l => l.length
decreasing_by
  simp only [List.length_drop, List.length_cons]
  have h1 := Nat.le_max_right b 1
  omega

/-- `reqCache` after one batch: the row requests of the batch, segregated
per reader in arrival order. -/
def groupReqs (n : Nat) (batch : List (Nat × Nat)) : List (List Nat) :=
  batch.foldl (fun qs p => qs.set p.1 (qs.getD p.1 [] ++ [p.2]))
    (List.replicate n [])

/-- `debuf`: replay the cached records in `fromCache` order, taking each
reader's next cached row in turn. -/
def replayBatch (fetch : Nat → Nat → α) :
    List (List Nat) → List Nat → List α
  | _, [] => []
  | qs, rr :: rest =>
    match qs.getD rr [] with
    | [] => []
    | row :: rows => fetch rr row :: replayBatch fetch (qs.set rr rows) rest

/-- The `buffsize > 1` path of `_getRecords`: process the index list in
batches, grouping each batch's requests per reader and replaying them in
original order. -/
def getRecordsBuffered (fetch : Nat → Nat → α) (n buffsize : Nat)
    (indexList : List (Nat × Nat)) : List α :=
  ((chunksOf buffsize indexList).map fun batch =>
    replayBatch fetch (groupReqs n batch) (batch.map Prod.fst)).flatten

/-- `_getRecords(indexList, buffsize)`. -/
def getRecords (fetch : Nat → Nat → α) (n : Nat)
    (indexList : List (Nat × Nat)) (buffsize : Nat) : List α :=
  if buffsize = 1 then getRecordsSimple fetch indexList
  else getRecordsBuffered fetch n buffsize indexList

/-- The per-reader row requests of a batch, in arrival order. -/
def reqsOf (r : Nat) (batch : List (Nat × Nat)) : List Nat :=
  (batch.filter fun p => p.1 == r).map Prod.snd

/-! ## Theorems -/

@[simp] theorem DataSet.fields_mk (f : DSFields) (s : List DataSet) :
    (DataSet.mk f s).fields = f := rfl

@[simp] theorem DataSet.subdatasets_mk (f : DSFields) (s : List DataSet) :
    (DataSet.mk f s).subdatasets = s := rfl

theorem coreEnc_mk (f : DSFields) (subs : List DataSet) :
    coreEnc (.mk f subs) =
      Nat.pair (optNatEnc f.objMetadata.uniqueId)
        (Nat.pair (natListEnc (f.externalResources.map resEnc))
          (Nat.pair (natListEnc (f.filters.map groupEnc))
            (natListEnc (subs.attach.map fun s => coreEnc s.1)))) := by
  rw [coreEnc]

theorem optNatEnc_le_coreEnc (f : DSFields) (subs : List DataSet) :
    optNatEnc f.objMetadata.uniqueId ≤ coreEnc (.mk f subs) := by
  rw [coreEnc_mk]
  exact Nat.left_le_pair _ _

/-- The fresh digest stored by `copy` is never the previous `UniqueId`:
the digest covers the previous `UniqueId` and strictly dominates its
encoding. -/
theorem copy_uuid_ne (d : DataSet) : d.copy.uuid ≠ d.uuid := by
  cases d with
  | mk f subs =>
    have hle := optNatEnc_le_coreEnc f subs
    cases h : f.objMetadata.uniqueId with
    | none =>
      simp [DataSet.copy, DataSet.newUuid, DataSet.uuid, DataSet.objMetadata,
        DataSet.withFields, DataSet.newUuidVal, h]
    | some u =>
      rw [h] at hle
      simp only [optNatEnc] at hle
      simp only [DataSet.copy, DataSet.newUuid, DataSet.uuid,
        DataSet.objMetadata, DataSet.withFields, DataSet.newUuidVal,
        DataSet.fields_mk, h, ne_eq, Option.some.injEq]
      omega

/-- A copy never compares equal to the original under `__eq__`: the core
document hashed for equality still contains the (now different) `UniqueId`,
as the source documents in `newUuid` and demonstrates in the `copy`
doctest (`ds1 == ds2` is `False`). -/
theorem dsEq_copy_false (d : DataSet) : dsEq d.copy d = false := by
  cases d with
  | mk f subs =>
    have hle := optNatEnc_le_coreEnc f subs
    simp only [dsEq, DataSet.newUuidVal, beq_eq_false_iff_ne, ne_eq]
    intro hcontra
    have hcopy : DataSet.copy (.mk f subs) =
        DataSet.mk { f with objMetadata :=
          { f.objMetadata with uniqueId := some (coreEnc (.mk f subs)) } }
          subs := rfl
    rw [hcopy, coreEnc_mk, coreEnc_mk] at hcontra
    simp only [Nat.pair_eq_pair] at hcontra
    have huid := hcontra.1
    rw [← coreEnc_mk f subs] at huid
    cases h : f.objMetadata.uniqueId with
    | none => rw [h] at huid; simp [optNatEnc] at huid
    | some u =>
      rw [h] at huid
      simp only [optNatEnc, Nat.add_right_cancel_iff] at huid
      rw [h] at hle
      simp only [optNatEnc] at hle
      omega

/-- C1, counterexample: for the concrete DataSet `sampleDS`, the copy is
*not* equal to the original under `__eq__` (the claim asserts
`d.copy() == d` for every `d`), because the hashed core document includes
the `UniqueId`, which the copy regenerates. -/
theorem claim_C1_counterexample :
    ¬ (dsEq sampleDS.copy sampleDS = true ∧
       sampleDS.copy.uuid ≠ sampleDS.uuid) := by
  intro h
  have h1 : dsEq sampleDS.copy sampleDS = false := dsEq_copy_false sampleDS
  rw [h.1] at h1
  exact Bool.noConfusion h1

/-- C1 (amended): for every DataSet `d`, the copy `c = d.copy()` does get a
fresh `UniqueId` (`c.uuid ≠ d.uuid`), but `c == d` is `False`, not `True`:
`__eq__` compares MD5 digests of the core XML serialization, and the core
document is not stripped of the previous `UniqueId` (per the `newUuid`
docstring), so the regenerated `UniqueId` makes the digests differ. -/
theorem claim_C1_amended (d : DataSet) :
    d.copy.uuid ≠ d.uuid ∧ dsEq d.copy d = false :=
  ⟨copy_uuid_ne d, dsEq_copy_false d⟩

@[simp] theorem DataSet.fields_withFields (d : DataSet) (f : DSFields) :
    (d.withFields f).fields = f := by
  cases d; rfl

@[simp] theorem DataSet.subdatasets_withFields (d : DataSet)
    (f : DSFields) : (d.withFields f).subdatasets = d.subdatasets := by
  cases d; rfl

theorem DataSet.reFilter_caches (d : DataSet) (light : Bool) :
    (d.reFilter light).cachedFilters = [] ∧
      (d.reFilter light).index = none ∧
      (d.reFilter light).indexMap = none := by
  cases light <;>
    simp [DataSet.reFilter, DataSet.cachedFilters, DataSet.index,
      DataSet.indexMap]

theorem DataSet.addFilters_fields (d : DataSet) (f : Filters) (u : Bool) :
    (d.addFilters f u).objMetadata = d.objMetadata ∧
      (d.addFilters f u).filters = Filters.mergeGroups d.filters f ∧
      (d.addFilters f u).externalResources = d.externalResources ∧
      (d.addFilters f u).subdatasets = d.subdatasets ∧
      (d.addFilters f u).cachedFilters = [] ∧
      (d.addFilters f u).index = none ∧
      (d.addFilters f u).indexMap = none := by
  cases u <;>
    simp [DataSet.addFilters, DataSet.reFilter, DataSet.objMetadata,
      DataSet.filters, DataSet.externalResources, DataSet.cachedFilters,
      DataSet.index, DataSet.indexMap]

theorem mergePreCheck_objMetadata (a b : DataSet) :
    (a.mergePreCheck b).objMetadata = a.objMetadata := by
  have h := (DataSet.addFilters_fields a b.filters true).1
  simp only [DataSet.objMetadata] at h
  simp [DataSet.mergePreCheck, DataSet.objMetadata, h]

theorem merge_versionError_iff (a b : DataSet) (c : Bool)
    (hty : typeCompatible a b = true)
    (hpass : (!a.externalResources.isEmpty &&
      !(testCompatibility a.filters b.filters)) = false) :
    ((a.merge b c).isVersionError = true ↔
      checkObjMetadataBlocks a.objMetadata b.objMetadata = true) := by
  rw [DataSet.merge]
  simp only [hty, if_true, hpass, Bool.false_eq_true, if_false,
    mergePreCheck_objMetadata]
  by_cases hchk : checkObjMetadataBlocks a.objMetadata b.objMetadata = true
  · simp only [hchk, if_true]
    simp [MergeOutcome.isVersionError]
  · have hchkf : checkObjMetadataBlocks a.objMetadata b.objMetadata
        = false := by
      cases h : checkObjMetadataBlocks a.objMetadata b.objMetadata
      · rfl
      · exact absurd h hchk
    simp only [hchkf, Bool.false_eq_true, if_false]
    cases c <;> simp [MergeOutcome.isVersionError]

theorem merge_not_blocked_outcome (a b : DataSet) (c : Bool)
    (hty : typeCompatible a b = true)
    (hpass : (!a.externalResources.isEmpty &&
      !(testCompatibility a.filters b.filters)) = false) :
    (a.merge b c).isBlocked = false := by
  rw [DataSet.merge]
  simp only [hty, if_true, hpass, Bool.false_eq_true, if_false]
  split
  · rfl
  · split <;> rfl

theorem merge_blocked_iff (a b : DataSet) (c : Bool)
    (hty : typeCompatible a b = true) :
    (a.merge b c).isBlocked = true ↔
      (a.externalResources.isEmpty = false ∧
        testCompatibility a.filters b.filters = false) := by
  constructor
  · intro h
    by_contra hcon
    have hpass : (!a.externalResources.isEmpty &&
        !(testCompatibility a.filters b.filters)) = false := by
      cases hE : a.externalResources.isEmpty <;>
        cases hC : testCompatibility a.filters b.filters <;>
          simp_all
    rw [merge_not_blocked_outcome a b c hty hpass] at h
    exact Bool.noConfusion h
  · intro h
    rw [DataSet.merge]
    simp only [hty, if_true, h.1, h.2, Bool.not_false, Bool.and_self,
      if_true]
    rfl

/-- C3, counterexample: the filter-compatibility gate inspects only the
*receiver's* resource list (`firstIn`).  Here the incoming DataSet has no
external resources, yet the merge is still blocked (returns `None`), which
contradicts the claim that the check cannot block when either operand has
no external resources. -/
theorem claim_C3_counterexample :
    (simpleDS "AlignmentSet" (some 1) none [] []
      ).externalResources.isEmpty = true ∧
    (DataSet.merge
      (simpleDS "AlignmentSet" (some 2) none
        [{ resourceId := "r", size := 1 }] rqFilter)
      (simpleDS "AlignmentSet" (some 1) none [] [])
      true).isBlocked = true := by
  constructor
  · decide
  · decide

/-- C3 (amended): for type-compatible operands, `a.merge(b)` returns the
null result exactly when the *receiver* `a` already has external resources
and the two Filters are incompatible; whether `b` has resources is
irrelevant (in particular a resource-less receiver is never blocked, but a
resource-less incoming DataSet does not disable the check). -/
theorem claim_C3_amended (a b : DataSet) (c : Bool)
    (hty : typeCompatible a b = true) :
    (a.merge b c).isBlocked = true ↔
      (a.externalResources.isEmpty = false ∧
        testCompatibility a.filters b.filters = false) :=
  merge_blocked_iff a b c hty

/-- C3, witness: instantiation of the amended theorem at concrete inputs
(both operands carrying a resource, incompatible filters: the merge is
blocked). -/
theorem claim_C3_witness :
    (DataSet.merge
      (simpleDS "AlignmentSet" (some 2) none
        [{ resourceId := "r", size := 1 }] rqFilter)
      (simpleDS "AlignmentSet" (some 1) none
        [{ resourceId := "s", size := 1 }] [])
      true).isBlocked = true := by
  rw [claim_C3_amended _ _ _ (by decide)]
  constructor
  · decide
  · decide

/-- C2, counterexample: merging a *lower*-declared-version DataSet into a
higher one is not rejected at all (the merge returns a normal result, not
a null result with a warning), while merging a *strictly greater* incoming
version into the receiver raises `ValueError` — the converse of the claim
in both the direction of the comparison and the fatality. -/
theorem claim_C2_counterexample :
    (DataSet.merge
      (simpleDS "AlignmentSet" (some 1) (some "3.0.1")
        [{ resourceId := "a", size := 1 }] [])
      (simpleDS "AlignmentSet" (some 2) (some "2.0.0")
        [{ resourceId := "b", size := 1 }] [])
      true).isBlocked = false ∧
    (DataSet.merge
      (simpleDS "AlignmentSet" (some 1) (some "3.0.1")
        [{ resourceId := "a", size := 1 }] [])
      (simpleDS "AlignmentSet" (some 2) (some "2.0.0")
        [{ resourceId := "b", size := 1 }] [])
      true).isOk = true ∧
    (DataSet.merge
      (simpleDS "AlignmentSet" (some 1) (some "3.0.1")
        [{ resourceId := "a", size := 1 }] [])
      (simpleDS "AlignmentSet" (some 2) (some "4.0.0")
        [{ resourceId := "c", size := 1 }] [])
      true).isVersionError = true := by
  refine ⟨?_, ?_, ?_⟩
  · decide
  · decide
  · decide

/-- C2 (amended): for type-compatible operands that pass the filter gate,
`a.merge(b)` fails the version check — by *raising* `ValueError`, not by
returning a null result — exactly when the receiver `a` declares a truthy
`Version` and the incoming `Version` is *strictly greater* than the
receiver's; an incoming `Version` less than or equal to the receiver's
(or an absent one) is never blocked by the version check. -/
theorem claim_C2_amended (a b : DataSet) (c : Bool)
    (hty : typeCompatible a b = true)
    (hpass : (!a.externalResources.isEmpty &&
      !(testCompatibility a.filters b.filters)) = false) :
    ((a.merge b c).isVersionError = true ↔
      (versionTruthy a.objMetadata.version = true ∧
        pyVersionGt b.objMetadata.version a.objMetadata.version = true)) := by
  rw [merge_versionError_iff a b c hty hpass]
  simp [checkObjMetadataBlocks]

/-- C2, witness: instantiation of the amended theorem at concrete inputs
(incoming version `4.0.0` strictly above the receiver's `3.0.1`: the
version check raises). -/
theorem claim_C2_witness :
    (DataSet.merge
      (simpleDS "AlignmentSet" (some 1) (some "3.0.1")
        [{ resourceId := "a", size := 1 }] [])
      (simpleDS "AlignmentSet" (some 2) (some "4.0.0")
        [{ resourceId := "c", size := 1 }] [])
      true).isVersionError = true := by
  rw [claim_C2_amended _ _ _ (by decide) (by decide)]
  constructor
  · decide
  · decide

/-- C4, counterexample: `addExternalResources` and `addDatasets` mutate the
resource list and the subdataset list without invalidating any cache: the
materialized index, the index map and the compiled-filter cache all survive
the mutation, contradicting the claim that every such mutation resets
them. -/
theorem claim_C4_counterexample :
    (cachedDS.addExternalResources [{ resourceId := "b", size := 3 }]
        true).index = some 5 ∧
    (cachedDS.addExternalResources [{ resourceId := "b", size := 3 }]
        true).indexMap = some 6 ∧
    (cachedDS.addExternalResources [{ resourceId := "b", size := 3 }]
        true).cachedFilters = [CompiledFilter.alwaysTrue] ∧
    (cachedDS.addDatasets sampleDS).index = some 5 ∧
    (cachedDS.addDatasets sampleDS).indexMap = some 6 ∧
    (cachedDS.addDatasets sampleDS).cachedFilters =
      [CompiledFilter.alwaysTrue] := by
  refine ⟨?_, ?_, ?_, ?_, ?_, ?_⟩ <;> decide

/-- C4 (amended): only mutations that go through the filter machinery
invalidate the caches: `reFilter` (the callback registered by the
`filters` property) and `addFilters` reset `_cachedFilters` to `[]` and
both index caches to `None`; `addExternalResources` and `addDatasets`
leave all three caches untouched, so an index built before a
resource/subdataset mutation remains observable. -/
theorem claim_C4_amended (d o : DataSet) (light u uc : Bool) (f : Filters)
    (rs : List ExternalResource) :
    ((d.reFilter light).cachedFilters = [] ∧
      (d.reFilter light).index = none ∧
      (d.reFilter light).indexMap = none) ∧
    ((d.addFilters f u).cachedFilters = [] ∧
      (d.addFilters f u).index = none ∧
      (d.addFilters f u).indexMap = none) ∧
    ((d.addExternalResources rs uc).cachedFilters = d.cachedFilters ∧
      (d.addExternalResources rs uc).index = d.index ∧
      (d.addExternalResources rs uc).indexMap = d.indexMap) ∧
    ((d.addDatasets o).cachedFilters = d.cachedFilters ∧
      (d.addDatasets o).index = d.index ∧
      (d.addDatasets o).indexMap = d.indexMap) := by
  refine ⟨d.reFilter_caches light,
    ⟨(d.addFilters_fields f u).2.2.2.2.1,
      (d.addFilters_fields f u).2.2.2.2.2.1,
      (d.addFilters_fields f u).2.2.2.2.2.2⟩, ?_, ?_⟩
  · cases uc <;>
      simp [DataSet.addExternalResources, DataSet.updateCounts,
        DataSet.cachedFilters, DataSet.index, DataSet.indexMap]
  · rw [DataSet.addDatasets]
    split <;>
      simp [DataSet.cachedFilters, DataSet.index, DataSet.indexMap,
        DataSet.fields]

/-! ### Merge mutates the receiver (C10) -/

theorem DataSet.addDatasets_fields (d o : DataSet) :
    (d.addDatasets o).fields = d.fields := by
  rw [DataSet.addDatasets]
  split <;> simp

@[simp] theorem DataSet.copy_uuid (d : DataSet) :
    d.copy.uuid = some (coreEnc d) := by
  cases d; rfl

@[simp] theorem DataSet.uuid_addDatasets (d o : DataSet) :
    (d.addDatasets o).uuid = d.uuid := by
  simp [DataSet.uuid, DataSet.objMetadata, DataSet.addDatasets_fields]

@[simp] theorem DataSet.uuid_addMetadata (d : DataSet)
    (m : ContentMetadata) : (d.addMetadata m).uuid = d.uuid := by
  simp [DataSet.uuid, DataSet.objMetadata, DataSet.addMetadata]

@[simp] theorem DataSet.uuid_addExternalResources (d : DataSet)
    (rs : List ExternalResource) (uc : Bool) :
    (d.addExternalResources rs uc).uuid = d.uuid := by
  cases uc <;>
    simp [DataSet.uuid, DataSet.objMetadata, DataSet.addExternalResources,
      DataSet.updateCounts]

@[simp] theorem DataSet.uuid_withFields_metadata (d : DataSet)
    (m : ContentMetadata) :
    (d.withFields { d.fields with metadata := m }).uuid = d.uuid := by
  simp [DataSet.uuid, DataSet.objMetadata]

theorem mergeResult_uuid (s3 other : DataSet) (firstIn : Bool) :
    (s3.mergeResult other true firstIn).uuid = some (coreEnc s3) := by
  rw [DataSet.mergeResult]
  simp only [DataSet.uuid_addExternalResources]
  split
  · simp only [DataSet.uuid_withFields_metadata]
    split
    · simp only [DataSet.uuid_addDatasets]
      split
      · simp only [DataSet.uuid_addDatasets, if_true]
        simp
      · simp
    · split
      · simp only [DataSet.uuid_addDatasets, if_true]
        simp
      · simp
  · simp only [DataSet.uuid_addMetadata]
    split
    · simp only [DataSet.uuid_addDatasets]
      split
      · simp only [DataSet.uuid_addDatasets, if_true]
        simp
      · simp
    · split
      · simp only [DataSet.uuid_addDatasets, if_true]
        simp
      · simp

theorem mergedReceiver_eq (a b : DataSet) :
    a.mergedReceiver b = a.withFields
      { a.fields with
        objMetadata := ObjMetadata.update a.objMetadata b.objMetadata
        filters := Filters.mergeGroups a.filters b.filters
        cachedFilters := []
        index := none
        indexMap := none } := by
  cases a with
  | mk f subs => rfl

theorem mergedReceiver_fields (a b : DataSet) :
    (a.mergedReceiver b).filters = Filters.mergeGroups a.filters b.filters ∧
    (a.mergedReceiver b).objMetadata =
      ObjMetadata.update a.objMetadata b.objMetadata ∧
    (a.mergedReceiver b).cachedFilters = [] ∧
    (a.mergedReceiver b).index = none ∧
    (a.mergedReceiver b).indexMap = none ∧
    (a.mergedReceiver b).externalResources = a.externalResources ∧
    (a.mergedReceiver b).subdatasets = a.subdatasets ∧
    (a.mergedReceiver b).metadata = a.metadata := by
  rw [mergedReceiver_eq]
  refine ⟨?_, ?_, ?_, ?_, ?_, ?_, ?_, ?_⟩ <;>
    simp [DataSet.filters, DataSet.objMetadata, DataSet.cachedFilters,
      DataSet.index, DataSet.indexMap, DataSet.externalResources,
      DataSet.metadata]

theorem mergedReceiver_uuid_ne (a b : DataSet) :
    some (coreEnc (a.mergedReceiver b)) ≠ (a.mergedReceiver b).uuid := by
  cases h : (a.mergedReceiver b) with
  | mk f subs =>
    have hle := optNatEnc_le_coreEnc f subs
    cases hu : f.objMetadata.uniqueId with
    | none => simp [DataSet.uuid, DataSet.objMetadata, hu]
    | some u =>
      rw [hu] at hle
      simp only [optNatEnc] at hle
      simp only [DataSet.uuid, DataSet.objMetadata, DataSet.fields_mk, hu,
        ne_eq, Option.some.injEq]
      omega

/-- C10: merging with `copyOnMerge=True` (hence also `a + b`) mutates the
receiver even though it returns a fresh result object: on a successful
merge the receiver comes out with its filters merged in place with the
other's, its objMetadata dictionary overwritten by the other's entries and
its compiled-filter cache cleared, while its external resources,
subdatasets and content metadata are untouched (those are added only to
the returned result, whose regenerated UniqueId differs from the
receiver's). -/
theorem claim_C10 (a b : DataSet)
    (hty : typeCompatible a b = true)
    (hfilt : (!a.externalResources.isEmpty &&
      !(testCompatibility a.filters b.filters)) = false)
    (hver : checkObjMetadataBlocks a.objMetadata b.objMetadata = false) :
    ∃ r, a.merge b true = MergeOutcome.ok (a.mergedReceiver b) r ∧
      (a.mergedReceiver b).filters =
        Filters.mergeGroups a.filters b.filters ∧
      (a.mergedReceiver b).objMetadata =
        ObjMetadata.update a.objMetadata b.objMetadata ∧
      (a.mergedReceiver b).cachedFilters = [] ∧
      (a.mergedReceiver b).externalResources = a.externalResources ∧
      (a.mergedReceiver b).subdatasets = a.subdatasets ∧
      (a.mergedReceiver b).metadata = a.metadata ∧
      r.uuid ≠ (a.mergedReceiver b).uuid := by
  have hfields := mergedReceiver_fields a b
  refine ⟨(a.mergedReceiver b).mergeResult b true
    a.externalResources.isEmpty, ?_, hfields.1, hfields.2.1,
    hfields.2.2.1, hfields.2.2.2.2.2.1, hfields.2.2.2.2.2.2.1,
    hfields.2.2.2.2.2.2.2, ?_⟩
  · rw [DataSet.merge]
    simp only [hty, if_true, hfilt, Bool.false_eq_true, if_false,
      mergePreCheck_objMetadata, hver]
  · rw [mergeResult_uuid]
    exact mergedReceiver_uuid_ne a b

/-- C10, witness: instantiation at concrete inputs (two one-resource
AlignmentSets with equal filters and no versions). -/
theorem claim_C10_witness :
    ∃ r, (DataSet.merge
      (simpleDS "AlignmentSet" (some 1) none
        [{ resourceId := "a", size := 1 }] [])
      (simpleDS "AlignmentSet" (some 2) none
        [{ resourceId := "b", size := 1 }] [])
      true) = MergeOutcome.ok
        ((simpleDS "AlignmentSet" (some 1) none
          [{ resourceId := "a", size := 1 }] []).mergedReceiver
          (simpleDS "AlignmentSet" (some 2) none
            [{ resourceId := "b", size := 1 }] [])) r := by
  obtain ⟨r, h, -⟩ := claim_C10
    (simpleDS "AlignmentSet" (some 1) none
      [{ resourceId := "a", size := 1 }] [])
    (simpleDS "AlignmentSet" (some 2) none
      [{ resourceId := "b", size := 1 }] [])
    (by decide) (by decide) (by decide)
  exact ⟨r, h⟩

theorem getD_set_self_nil (L : List (List α)) (j : Nat) (v : List α)
    (h : j < L.length) : (L.set j v).getD j [] = v := by
  rw [List.getD_eq_getElem?_getD, List.getElem?_set_self h]
  rfl

theorem getD_set_ne_nil (L : List (List α)) (i j : Nat) (v : List α)
    (h : i ≠ j) : (L.set i v).getD j [] = L.getD j [] := by
  rw [List.getD_eq_getElem?_getD, List.getElem?_set_ne h,
    ← List.getD_eq_getElem?_getD]

theorem flatten_set_append (L : List (List α)) (j : Nat) (x : α)
    (h : j < L.length) :
    (L.set j (L.getD j [] ++ [x])).flatten.Perm (x :: L.flatten) := by
  induction L generalizing j with
  | nil => simp at h
  | cons c cs ih =>
    cases j with
    | zero =>
      simp only [List.getD_cons_zero, List.set_cons_zero, List.flatten_cons]
      have h1 : (c ++ [x]) ++ cs.flatten = c ++ (x :: cs.flatten) := by
        simp
      rw [h1]
      exact List.perm_middle
    | succ k =>
      have hk : k < cs.length := by simpa using h
      simp only [List.getD_cons_succ, List.set_cons_succ, List.flatten_cons]
      exact ((ih k hk).append_left c).trans List.perm_middle

theorem chunkStep_spec (key : α → Nat) (K : Nat)
    (st : List (List α) × List (Nat × Nat)) (x : α)
    (hK : 0 < K) (hinv : ChunkInv K st) :
    ChunkInv K (chunkStep key st x) ∧
    (chunkStep key st x).1.flatten.Perm (x :: st.1.flatten) ∧
    zeroCount (chunkStep key st x).2 = zeroCount st.2 - 1 := by
  obtain ⟨hlen, hperm, hiff⟩ := hinv
  have hsperm : (st.2.insertionSort pairLeP).Perm st.2 :=
    List.perm_insertionSort _ _
  have hsorted : List.Sorted pairLeP (st.2.insertionSort pairLeP) :=
    List.sorted_insertionSort _ _
  have hne : st.2 ≠ [] := by
    intro h0
    rw [h0] at hperm
    have hr : List.range K = [] := (List.Perm.symm (by simpa using hperm)).eq_nil
    rw [List.range_eq_nil] at hr
    omega
  cases hs : st.2.insertionSort pairLeP with
  | nil =>
    exfalso
    rw [hs] at hsperm
    exact hne hsperm.symm.eq_nil
  | cons hd rest =>
    obtain ⟨load, j⟩ := hd
    rw [hs] at hsperm hsorted
    have hmapperm : (((load, j) :: rest).map Prod.snd).Perm
        (st.2.map Prod.snd) := hsperm.map Prod.snd
    have hjmem : j ∈ st.2.map Prod.snd :=
      hmapperm.mem_iff.mp (by simp)
    have hjK : j < K := List.mem_range.mp (hperm.mem_iff.mp hjmem)
    have hnodup : (st.2.map Prod.snd).Nodup :=
      hperm.nodup_iff.mpr (List.nodup_range K)
    have hsortnodup : (((load, j) :: rest).map Prod.snd).Nodup :=
      hmapperm.nodup_iff.mpr hnodup
    have hjnotrest : ∀ p ∈ rest, p.2 ≠ j := by
      intro p hp hpe
      have h1 : j ∉ rest.map Prod.snd := by
        have h2 := hsortnodup
        simp only [List.map_cons, List.nodup_cons] at h2
        exact h2.1
      exact h1 (by
        rw [← hpe]
        exact List.mem_map_of_mem Prod.snd hp)
    have hheadle : ∀ p ∈ rest, pairLeP (load, j) p :=
      (List.sorted_cons.mp hsorted).1
    have hiffs : ∀ p ∈ (load, j) :: rest,
        (p.1 = 0 ↔ st.1.getD p.2 [] = []) := fun p hp =>
      hiff p (hsperm.mem_iff.mp hp)
    have hstep : chunkStep key st x =
        (st.1.set j (st.1.getD j [] ++ [x]),
          (load + (if key x = 0 then 1 else key x), j) :: rest) := by
      rw [chunkStep, hs]
    have hm : 0 < (if key x = 0 then 1 else key x) := by
      split
      · omega
      · omega
    have hjlen : j < st.1.length := by omega
    rw [hstep]
    refine ⟨⟨by simpa using hlen, ?_, ?_⟩, ?_, ?_⟩
    · have heq : (((load + (if key x = 0 then 1 else key x), j) ::
          rest).map Prod.snd) = ((load, j) :: rest).map Prod.snd := by simp
      rw [heq]
      exact hmapperm.trans hperm
    · intro p hp
      rcases List.mem_cons.mp hp with hphd | hprest
      · subst hphd
        simp only
        rw [getD_set_self_nil _ _ _ hjlen]
        constructor
        · intro h0; omega
        · intro h0
          exact absurd h0 (by simp)
      · rw [getD_set_ne_nil _ _ _ _ (Ne.symm (hjnotrest p hprest))]
        exact hiffs p (List.mem_cons_of_mem _ hprest)
    · exact flatten_set_append st.1 j x hjlen
    · have hzc : zeroCount st.2 = zeroCount ((load, j) :: rest) :=
        (List.Perm.countP_eq _ hsperm).symm
      have hL : ((load + (if key x = 0 then 1 else key x), j) ::
          rest).countP (fun p => p.1 == 0) =
          rest.countP (fun p => p.1 == 0) := by
        apply List.countP_cons_of_neg
        simp only [beq_iff_eq]
        omega
      rw [hzc]
      unfold zeroCount
      rw [hL]
      rcases Nat.eq_zero_or_pos load with h0 | hpos
      · subst h0
        have hR : (((0 : Nat), j) :: rest).countP
            (fun p => p.1 == 0) =
            rest.countP (fun p => p.1 == 0) + 1 := by
          apply List.countP_cons_of_pos
          simp
        rw [hR]
        omega
      · have hrest0 : rest.countP (fun p => p.1 == 0) = 0 := by
          rw [List.countP_eq_zero]
          intro p hp
          have hle := hheadle p hp
          unfold pairLeP at hle
          simp only [beq_iff_eq]
          omega
        have hR : ((load, j) :: rest).countP (fun p => p.1 == 0) =
            rest.countP (fun p => p.1 == 0) := by
          apply List.countP_cons_of_neg
          simp only [beq_iff_eq]
          omega
        rw [hR, hrest0]

theorem chunkFold_spec (key : α → Nat) (K : Nat) (items : List α)
    (st : List (List α) × List (Nat × Nat))
    (hK : 0 < K) (hinv : ChunkInv K st) :
    ChunkInv K (items.foldl (chunkStep key) st) ∧
    (items.foldl (chunkStep key) st).1.flatten.Perm
      (items ++ st.1.flatten) ∧
    zeroCount (items.foldl (chunkStep key) st).2 =
      zeroCount st.2 - items.length := by
  induction items generalizing st with
  | nil => exact ⟨hinv, by simp, by simp⟩
  | cons x rest ih =>
    obtain ⟨hinv1, hflat1, hzc1⟩ := chunkStep_spec key K st x hK hinv
    obtain ⟨hinv2, hflat2, hzc2⟩ := ih (chunkStep key st x) hinv1
    refine ⟨by simpa using hinv2, ?_, ?_⟩
    · simp only [List.foldl_cons, List.cons_append]
      exact (hflat2.trans ((hflat1.append_left rest).trans
        List.perm_middle))
    · simp only [List.foldl_cons, List.length_cons]
      rw [hzc2, hzc1]
      omega

theorem chunkInit_inv (K : Nat) :
    ChunkInv K (chunkInit α K) ∧
    (chunkInit α K).1.flatten = [] ∧
    zeroCount (chunkInit α K).2 = K := by
  refine ⟨⟨by simp [chunkInit], ?_, ?_⟩, ?_, ?_⟩
  · have heq : ((chunkInit α K).2.map Prod.snd) = List.range K := by
      simp [chunkInit, List.map_map, Function.comp_def]
    rw [heq]
  · intro p hp
    simp only [chunkInit, List.mem_map, List.mem_range] at hp
    obtain ⟨i, hi, hpe⟩ := hp
    subst hpe
    simp only [chunkInit, List.getD_eq_getElem?_getD,
      List.getElem?_replicate]
    simp [hi]
  · simp only [chunkInit, List.flatten_eq_nil_iff]
    intro l hl
    exact List.eq_of_mem_replicate hl
  · simp only [chunkInit, zeroCount]
    rw [List.countP_map]
    have hone : ((fun p : Nat × Nat => p.1 == 0) ∘
        fun i : Nat => ((0 : Nat), i)) = fun _ : Nat => true := by
      funext i
      simp
    rw [hone]
    simp

theorem chunkList_spec (A : List α) (key : α → Nat) (K : Nat)
    (h1 : 1 ≤ K) (h2 : K ≤ A.length) :
    (chunkList A K key).length = K ∧
    (∀ c ∈ chunkList A K key, c ≠ []) ∧
    (chunkList A K key).flatten.Perm A := by
  have hK : 0 < K := h1
  obtain ⟨hinv0, hflat0, hzc0⟩ := @chunkInit_inv α K
  obtain ⟨hinv, hflat, hzc⟩ := chunkFold_spec key K
    (A.insertionSort (keyGe key)) (chunkInit α K) hK hinv0
  have hsortlen : (A.insertionSort (keyGe key)).length = A.length :=
    (List.perm_insertionSort _ _).length_eq
  obtain ⟨hlen, hperm, hiff⟩ := hinv
  have hchunk : chunkList A K key =
      ((A.insertionSort (keyGe key)).foldl (chunkStep key)
        (chunkInit α K)).1 := rfl
  have hzero : zeroCount
      ((A.insertionSort (keyGe key)).foldl (chunkStep key)
        (chunkInit α K)).2 = 0 := by
    rw [hzc, hzc0, hsortlen]
    omega
  refine ⟨by rw [hchunk]; exact hlen, ?_, ?_⟩
  · intro c hc hcempty
    rw [hchunk] at hc
    obtain ⟨i, hi, hci⟩ := List.getElem_of_mem hc
    have hgd : ((A.insertionSort (keyGe key)).foldl (chunkStep key)
        (chunkInit α K)).1.getD i [] = c := by
      rw [List.getD_eq_getElem?_getD, List.getElem?_eq_getElem hi, hci]
      rfl
    have himem : i ∈ List.range K := by
      rw [List.mem_range]
      rw [hlen] at hi
      exact hi
    have hinmap : i ∈ (((A.insertionSort (keyGe key)).foldl
        (chunkStep key) (chunkInit α K)).2.map Prod.snd) :=
      hperm.mem_iff.mpr himem
    obtain ⟨p, hpmem, hpi⟩ := List.mem_map.mp hinmap
    have hp0 : p.1 ≠ 0 := by
      intro h0
      have := List.countP_eq_zero.mp hzero p hpmem
      simp [h0] at this
    exact hp0 ((hiff p hpmem).mpr (by
      rw [hpi, hgd]
      exact hcempty))
  · rw [hchunk]
    have h3 : (A.insertionSort (keyGe key)) ++
        (chunkInit α K).1.flatten = A.insertionSort (keyGe key) := by
      rw [hflat0]
      simp
    rw [h3] at hflat
    exact hflat.trans (List.perm_insertionSort _ _)

/-- C5: for every atom list `A`, size key and chunk count `K` with
`1 ≤ K ≤ |A|`, `_chunkList` (which sorts descending by size and greedily
charges each atom — a zero-size atom counting as `1` — to the currently
lightest bin) produces exactly `K` chunks, all non-empty, whose
concatenation is a permutation of `A` (each atom lands in exactly one
chunk). -/
theorem claim_C5 (A : List α) (key : α → Nat) (K : Nat)
    (h1 : 1 ≤ K) (h2 : K ≤ A.length) :
    (chunkList A K key).length = K ∧
    (∀ c ∈ chunkList A K key, c ≠ []) ∧
    (chunkList A K key).flatten.Perm A :=
  chunkList_spec A key K h1 h2

/-- C5, witness: the theorem applied at a concrete atom list
(`[3, 0, 2]`, identity key, two chunks). -/
theorem claim_C5_witness :
    (chunkList [3, 0, 2] 2 (fun x => x)).length = 2 ∧
    (∀ c ∈ chunkList [3, 0, 2] 2 (fun x => x), c ≠ []) ∧
    (chunkList [3, 0, 2] 2 (fun x => x)).flatten.Perm [3, 0, 2] :=
  claim_C5 [3, 0, 2] (fun x => x) 2 (by decide) (by decide)

@[simp] theorem DataSet.copy_externalResources (d : DataSet) :
    d.copy.externalResources = d.externalResources := by
  simp [DataSet.copy, DataSet.newUuid, DataSet.externalResources]

@[simp] theorem DataSet.setResources_newUuid_externalResources
    (d : DataSet) (rs : List ExternalResource) :
    (d.setResources rs).newUuid.externalResources = rs := by
  simp [DataSet.setResources, DataSet.newUuid, DataSet.externalResources]

/-- C6: for every DataSet with `n ≥ 1` external resources and chunk count
`1 ≤ C ≤ n`, the default by-resource `split(chunks=C)` returns exactly `C`
DataSets whose resource lists together are a permutation of the original
resource list (each resource lands in exactly one chunk); `C = 1`
short-circuits to a single copy with the resources unmodified. -/
theorem claim_C6 (d : DataSet) (C : Nat) (h1 : 1 ≤ C)
    (h2 : C ≤ d.externalResources.length) :
    (d.split C).length = C ∧
    ((d.split C).map DataSet.externalResources).flatten.Perm
      d.externalResources ∧
    (C = 1 → d.split C = [d.copy] ∧
      d.copy.externalResources = d.externalResources) := by
  have hguard : ¬(C = 0 ∨ d.externalResources.length < C) := by omega
  by_cases hC1 : C = 1
  · subst hC1
    rw [DataSet.split]
    simp only [hguard, if_false, if_pos rfl]
    refine ⟨rfl, ?_, fun _ => ⟨rfl, DataSet.copy_externalResources d⟩⟩
    simp
  · obtain ⟨hlen, hne, hflat⟩ := chunkList_spec d.externalResources
      (fun r => r.size) C h1 h2
    rw [DataSet.split]
    simp only [hguard, if_false, hC1]
    have hziplen : ((List.replicate C d.copy).zip
        (chunkList d.externalResources C (fun r => r.size))).length = C := by
      rw [List.length_zip, List.length_replicate, hlen]
      omega
    have hmaps : List.map DataSet.externalResources
        (List.map DataSet.newUuid
          (List.map (fun rc : DataSet × List ExternalResource =>
            rc.1.setResources rc.2)
            ((List.replicate C d.copy).zip
              (chunkList d.externalResources C (fun r => r.size))))) =
        chunkList d.externalResources C (fun r => r.size) := by
      rw [List.map_map, List.map_map]
      have hfun : ((DataSet.externalResources ∘ DataSet.newUuid) ∘
          fun rc : DataSet × List ExternalResource =>
            rc.1.setResources rc.2) =
          fun rc : DataSet × List ExternalResource => rc.2 := by
        funext rc
        simp [Function.comp_def]
      rw [hfun]
      have : (fun rc : DataSet × List ExternalResource => rc.2) =
          Prod.snd := rfl
      rw [this]
      apply List.map_snd_zip
      rw [List.length_replicate, hlen]
    refine ⟨?_, ?_, fun hcon => hcon.elim⟩
    · rw [List.length_map, List.length_map]
      exact hziplen
    · rw [hmaps]
      exact hflat

theorem foldl_min_mem (xs : List Nat) (x : Nat) :
    xs.foldl min x ∈ x :: xs := by
  induction xs generalizing x with
  | nil => simp
  | cons y ys ih =>
    simp only [List.foldl_cons]
    have h := ih (min x y)
    rcases List.mem_cons.mp h with h1 | h1
    · rw [h1]
      rcases min_choice x y with h2 | h2
      · rw [h2]
        exact List.mem_cons_self x _
      · rw [h2]
        exact List.mem_cons_of_mem _ (List.mem_cons_self y _)
    · exact List.mem_cons_of_mem _ (List.mem_cons_of_mem _ h1)

theorem minNat_mem (l : List Nat) (h : l ≠ []) : minNat l ∈ l := by
  cases l with
  | nil => exact absurd rfl h
  | cons x xs => exact foldl_min_mem xs x

theorem foldl_min_le (xs : List Nat) (x y : Nat) (hy : y ∈ x :: xs) :
    xs.foldl min x ≤ y := by
  induction xs generalizing x y with
  | nil =>
    simp only [List.foldl_nil]
    simp at hy
    omega
  | cons z zs ih =>
    simp only [List.foldl_cons]
    rcases List.mem_cons.mp hy with h1 | h1
    · subst h1
      have h2 := ih (min y z) (min y z) (List.mem_cons_self _ _)
      have h4 := min_le_left y z
      omega
    · rcases List.mem_cons.mp h1 with h2 | h2
      · subst h2
        have h3 := ih (min x y) (min x y) (List.mem_cons_self _ _)
        have h4 := min_le_right x y
        omega
      · exact ih (min x z) y (List.mem_cons_of_mem _ h2)

theorem minNat_le (l : List Nat) : ∀ y ∈ l, minNat l ≤ y := by
  cases l with
  | nil => simp
  | cons x xs =>
    intro y hy
    exact foldl_min_le xs x y hy

theorem kwayMergeSize_cons (s : RRStream) (rest : List RRStream) :
    kwayMergeSize (s :: rest) = s.2.length + 1 + kwayMergeSize rest := by
  simp [kwayMergeSize]

theorem advance_cons_succ (s : RRStream) (rest : List RRStream) (k : Nat) :
    advance (s :: rest) (k + 1) = s :: advance rest k := by
  simp only [advance, List.getD_cons_succ]
  cases hs2 : (rest.getD k default).2 with
  | nil => simp
  | cons c cs => simp

theorem kwayMergeSize_advance (ss : List RRStream) (i : Nat)
    (hi : i < ss.length) :
    kwayMergeSize (advance ss i) + 1 = kwayMergeSize ss := by
  induction ss generalizing i with
  | nil => simp at hi
  | cons s rest ih =>
    cases i with
    | zero =>
      cases hs2 : s.2 with
      | nil =>
        have hadv : advance (s :: rest) 0 = rest := by
          simp only [advance, List.getD_cons_zero, hs2,
            List.eraseIdx_cons_zero]
        rw [hadv, kwayMergeSize_cons, hs2]
        simp
        omega
      | cons c cs =>
        have hadv : advance (s :: rest) 0 = (c, cs) :: rest := by
          simp only [advance, List.getD_cons_zero, hs2,
            List.set_cons_zero]
        rw [hadv, kwayMergeSize_cons, kwayMergeSize_cons, hs2]
        simp
        omega
    | succ k =>
      have hk : k < rest.length := by simpa using hi
      have ihk := ih k hk
      rw [advance_cons_succ, kwayMergeSize_cons, kwayMergeSize_cons]
      omega

theorem kwayMergeSize_eq_zero (ss : List RRStream)
    (h : kwayMergeSize ss = 0) : ss = [] := by
  cases ss with
  | nil => rfl
  | cons s rest =>
    rw [kwayMergeSize_cons] at h
    omega

theorem flattenStreams_advance (ss : List RRStream) (i : Nat)
    (hi : i < ss.length) :
    flattenStreams ss |>.Perm
      ((ss.getD i default).1 :: flattenStreams (advance ss i)) := by
  induction ss generalizing i with
  | nil => simp at hi
  | cons s rest ih =>
    cases i with
    | zero =>
      cases hs2 : s.2 with
      | nil =>
        simp only [advance, List.getD_cons_zero, hs2,
          List.eraseIdx_cons_zero]
        simp [flattenStreams, hs2]
      | cons c cs =>
        simp only [advance, List.getD_cons_zero, hs2, List.set_cons_zero]
        simp [flattenStreams, hs2]
    | succ k =>
      have hk : k < rest.length := by simpa using hi
      have ihk := ih k hk
      rw [advance_cons_succ]
      simp only [List.getD_cons_succ]
      have h1 : flattenStreams (s :: rest) =
          (s.1 :: s.2) ++ flattenStreams rest := by
        simp [flattenStreams]
      have h2 : flattenStreams (s :: advance rest k) =
          (s.1 :: s.2) ++ flattenStreams (advance rest k) := by
        simp [flattenStreams]
      rw [h1, h2]
      exact (ihk.append_left (s.1 :: s.2)).trans List.perm_middle

theorem kwayMergeFuel_perm (n : Nat) (ss : List RRStream)
    (h : kwayMergeSize ss ≤ n) :
    (kwayMergeFuel n ss).Perm (flattenStreams ss) := by
  induction n generalizing ss with
  | zero =>
    have h0 : ss = [] := kwayMergeSize_eq_zero ss (by omega)
    subst h0
    simp [kwayMergeFuel, flattenStreams]
  | succ n ih =>
    by_cases hempty : ss.isEmpty
    · have h0 : ss = [] := by simpa [List.isEmpty_iff] using hempty
      subst h0
      simp [kwayMergeFuel, flattenStreams]
    · have hne : ss ≠ [] := by simpa [List.isEmpty_iff] using hempty
      have htsne : ss.map (fun s => s.1.tStart) ≠ [] := by
        simpa using hne
      have hmin : minNat (ss.map fun s => s.1.tStart) ∈
          (ss.map fun s => s.1.tStart) := minNat_mem _ htsne
      have hi : ((ss.map fun s => s.1.tStart).findIdx
          fun t => t == minNat (ss.map fun s => s.1.tStart)) <
          ss.length := by
        have hex : ∃ x ∈ ss.map fun s => s.1.tStart,
            (x == minNat (ss.map fun s => s.1.tStart)) = true :=
          ⟨_, hmin, by simp⟩
        simpa using List.findIdx_lt_length_of_exists hex
      have hstep : kwayMergeFuel (n + 1) ss =
          (ss.getD ((ss.map fun s => s.1.tStart).findIdx
            fun t => t == minNat (ss.map fun s => s.1.tStart))
            default).1 ::
          kwayMergeFuel n (advance ss
            ((ss.map fun s => s.1.tStart).findIdx
              fun t => t == minNat (ss.map fun s => s.1.tStart))) := by
        rw [kwayMergeFuel]
        simp only [hempty, Bool.false_eq_true, if_false]
      have hsize := kwayMergeSize_advance ss _ hi
      have hadvle : kwayMergeSize (advance ss
          ((ss.map fun s => s.1.tStart).findIdx
            fun t => t == minNat (ss.map fun s => s.1.tStart))) ≤ n := by
        omega
      rw [hstep]
      exact ((ih _ hadvle).cons _).trans
        (flattenStreams_advance ss _ hi).symm

theorem mem_flattenStreams (ss : List RRStream) (r : AlnRecord) :
    r ∈ flattenStreams ss ↔ ∃ s ∈ ss, r ∈ s.1 :: s.2 := by
  simp only [flattenStreams, List.mem_flatten, List.mem_map]
  constructor
  · rintro ⟨l, ⟨s, hs, rfl⟩, hr⟩
    exact ⟨s, hs, hr⟩
  · rintro ⟨s, hs, hr⟩
    exact ⟨s.1 :: s.2, ⟨s, hs, rfl⟩, hr⟩

theorem head_tStart_min (ss : List RRStream) (hne : ss ≠ []) :
    (ss.getD ((ss.map fun s => s.1.tStart).findIdx
      fun t => t == minNat (ss.map fun s => s.1.tStart)) default).1.tStart =
    minNat (ss.map fun s => s.1.tStart) := by
  have htsne : ss.map (fun s => s.1.tStart) ≠ [] := by simpa using hne
  have hmin := minNat_mem _ htsne
  have hilt : ((ss.map fun s => s.1.tStart).findIdx
      fun t => t == minNat (ss.map fun s => s.1.tStart)) <
      (ss.map fun s => s.1.tStart).length :=
    List.findIdx_lt_length_of_exists ⟨_, hmin, by simp⟩
  have hval := @List.findIdx_getElem _ _ _ hilt
  have hlt : ((ss.map fun s => s.1.tStart).findIdx
      fun t => t == minNat (ss.map fun s => s.1.tStart)) < ss.length := by
    simpa using hilt
  rw [List.getD_eq_getElem?_getD, List.getElem?_eq_getElem hlt]
  simp only [Option.getD_some]
  simp only [List.getElem_map] at hval
  simpa using hval

theorem sortedStreams_advance (ss : List RRStream) (i : Nat)
    (hi : i < ss.length)
    (hs : ∀ s ∈ ss, List.Sorted recLe (s.1 :: s.2)) :
    ∀ s ∈ advance ss i, List.Sorted recLe (s.1 :: s.2) := by
  intro x hx
  rw [advance] at hx
  rcases hcur : (ss.getD i default).2 with _ | ⟨c, cs⟩
  · rw [hcur] at hx
    exact hs x (List.mem_of_mem_eraseIdx hx)
  · rw [hcur] at hx
    rcases List.mem_or_eq_of_mem_set hx with hmem | rfl
    · exact hs x hmem
    · have hcurmem : ss.getD i default ∈ ss := by
        rw [List.getD_eq_getElem?_getD, List.getElem?_eq_getElem hi]
        exact List.getElem_mem hi
      have hsor := hs _ hcurmem
      rw [hcur] at hsor
      exact (List.sorted_cons.mp hsor).2

theorem kwayMergeFuel_sorted (n : Nat) (ss : List RRStream)
    (h : kwayMergeSize ss ≤ n)
    (hs : ∀ s ∈ ss, List.Sorted recLe (s.1 :: s.2)) :
    List.Sorted recLe (kwayMergeFuel n ss) := by
  induction n generalizing ss with
  | zero => simp [kwayMergeFuel]
  | succ n ih =>
    by_cases hempty : ss.isEmpty
    · rw [kwayMergeFuel]
      simp [hempty]
    · have hne : ss ≠ [] := by simpa [List.isEmpty_iff] using hempty
      have htsne : ss.map (fun s => s.1.tStart) ≠ [] := by simpa using hne
      have hmin := minNat_mem _ htsne
      have hi : ((ss.map fun s => s.1.tStart).findIdx
          fun t => t == minNat (ss.map fun s => s.1.tStart)) <
          ss.length := by
        have hex : ∃ x ∈ ss.map fun s => s.1.tStart,
            (x == minNat (ss.map fun s => s.1.tStart)) = true :=
          ⟨_, hmin, by simp⟩
        simpa using List.findIdx_lt_length_of_exists hex
      have hstep : kwayMergeFuel (n + 1) ss =
          (ss.getD ((ss.map fun s => s.1.tStart).findIdx
            fun t => t == minNat (ss.map fun s => s.1.tStart))
            default).1 ::
          kwayMergeFuel n (advance ss
            ((ss.map fun s => s.1.tStart).findIdx
              fun t => t == minNat (ss.map fun s => s.1.tStart))) := by
        rw [kwayMergeFuel]
        simp only [hempty, Bool.false_eq_true, if_false]
      have hsize := kwayMergeSize_advance ss _ hi
      have hadvle : kwayMergeSize (advance ss
          ((ss.map fun s => s.1.tStart).findIdx
            fun t => t == minNat (ss.map fun s => s.1.tStart))) ≤ n := by
        omega
      rw [hstep, List.sorted_cons]
      constructor
      · intro b hb
        have hbadv : b ∈ flattenStreams (advance ss
            ((ss.map fun s => s.1.tStart).findIdx
              fun t => t == minNat (ss.map fun s => s.1.tStart))) :=
          (kwayMergeFuel_perm n _ hadvle).mem_iff.mp hb
        have hbss : b ∈ flattenStreams ss :=
          (flattenStreams_advance ss _ hi).symm.mem_iff.mp
            (List.mem_cons_of_mem _ hbadv)
        obtain ⟨s, hsmem, hbs⟩ := (mem_flattenStreams ss b).mp hbss
        have h1 : minNat (ss.map fun s => s.1.tStart) ≤ s.1.tStart :=
          minNat_le _ _ (List.mem_map_of_mem _ hsmem)
        have h2 : s.1.tStart ≤ b.tStart := by
          rcases List.mem_cons.mp hbs with rfl | hbtail
          · exact Nat.le_refl _
          · exact (List.sorted_cons.mp (hs s hsmem)).1 b hbtail
        have h3 := head_tStart_min ss hne
        unfold recLe
        omega
      · exact ih _ hadvle (sortedStreams_advance ss _ hi hs)

theorem flattenStreams_initStreams (lists : List (List AlnRecord)) :
    flattenStreams (initStreams lists) = lists.flatten := by
  induction lists with
  | nil => simp [initStreams, flattenStreams]
  | cons l rest ih =>
    cases l with
    | nil =>
      simp only [initStreams, List.filterMap_cons] at ih ⊢
      simpa using ih
    | cons c cs =>
      simp only [initStreams, List.filterMap_cons] at ih ⊢
      simp only [List.flatten_cons, ← ih]
      simp [flattenStreams]

theorem sorted_initStreams (lists : List (List AlnRecord))
    (hs : ∀ l ∈ lists, List.Sorted recLe l) :
    ∀ s ∈ initStreams lists, List.Sorted recLe (s.1 :: s.2) := by
  intro s hsmem
  simp only [initStreams, List.mem_filterMap] at hsmem
  obtain ⟨l, hl, hmatch⟩ := hsmem
  cases l with
  | nil => simp at hmatch
  | cons c cs =>
    simp only [Option.some.injEq] at hmatch
    rw [← hmatch]
    exact hs _ hl

/-- C7: for every family of per-resource range-query record sequences, the
k-way merge of `readsInRange` (which always yields the buffered record
with the globally smallest `tStart` and drops a resource once its iterator
is exhausted) yields exactly the union of the per-resource sequences (a
permutation of their concatenation); and if every per-resource sequence is
in nondecreasing `tStart` order, the merged output is in nondecreasing
`tStart` order. -/
theorem claim_C7 (lists : List (List AlnRecord)) :
    (readsInRangeMerge lists).Perm lists.flatten ∧
    ((∀ l ∈ lists, List.Sorted recLe l) →
      List.Sorted recLe (readsInRangeMerge lists)) := by
  constructor
  · have h := kwayMergeFuel_perm (kwayMergeSize (initStreams lists))
      (initStreams lists) (Nat.le_refl _)
    rw [flattenStreams_initStreams] at h
    exact h
  · intro hs
    exact kwayMergeFuel_sorted _ _ (Nat.le_refl _)
      (sorted_initStreams lists hs)

/-- C7, witness: the theorem applied to two concrete sorted resource
streams, with the sortedness hypothesis discharged by evaluation. -/
theorem claim_C7_witness :
    List.Sorted recLe (readsInRangeMerge
      [[⟨1, 0⟩, ⟨5, 1⟩], [⟨2, 2⟩, ⟨3, 3⟩]]) :=
  (claim_C7 [[⟨1, 0⟩, ⟨5, 1⟩], [⟨2, 2⟩, ⟨3, 3⟩]]).2 (by decide)

theorem lengthInWindow_le (start stop : Nat) (r : IdxRow) :
    lengthInWindow start stop r ≤ stop - start := by
  unfold lengthInWindow
  have h1 := min_le_right r.tEnd stop
  have h2 := le_max_right r.tStart start
  omega

/-- C8, counterexample: with window `[0, 10)`, two passing reads of clipped
lengths `5` and `1` and `sampleSize = 3`, the minimum-length group (the
single length-1 read; the same for the minimum of the reversed keys) has
cardinality `1 < 3`, so the claim says the cheap unstable sort is
substituted — but the code chooses the *stable* mergesort, because its
condition is `count_min > sampleSize`, the converse bound. -/
theorem claim_C8_counterexample :
    usesStableSort 0 10
      [(⟨0, 0, 5⟩, 0), (⟨0, 0, 1⟩, 1)] 3 = true ∧
    claimedUnstableSort 0 10
      [(⟨0, 0, 5⟩, 0), (⟨0, 0, 1⟩, 1)] 3 = true := by
  constructor
  · decide
  · decide

/-- C8 (amended): `longest=True` yields the window's records in
nonincreasing clipped-to-window length (the output is the passing entries
reordered by a stable ascending sort of the reversed keys, deterministic
on ties), and the cheaper unstable argsort is substituted exactly when
`sampleSize` is nonzero and the cardinality of the group attaining the
*minimum reversed key* (the maximal clipped length) strictly *exceeds*
`sampleSize` — not when the minimum-length group is below it. -/
theorem claim_C8_amended (start stop : Nat)
    (passes : List (IdxRow × Nat)) (sampleSize : Nat) :
    (pbiLongestOrder start stop passes).Perm passes ∧
    List.Pairwise (fun a b : IdxRow × Nat =>
      lengthInWindow start stop b.1 ≤ lengthInWindow start stop a.1)
      (pbiLongestOrder start stop passes) ∧
    (usesStableSort start stop passes sampleSize = false ↔
      (sampleSize ≠ 0 ∧
        sampleSize < countMinRev (revKeys start stop passes))) := by
  refine ⟨?_, ?_, ?_⟩
  · have hperm : (passes.enum.insertionSort
        (revLexLe start stop)).Perm passes.enum :=
      List.perm_insertionSort _ _
    have h2 := hperm.map Prod.snd
    rw [List.enum_map_snd] at h2
    exact h2
  · have hsorted : List.Sorted (revLexLe start stop)
        (passes.enum.insertionSort (revLexLe start stop)) :=
      List.sorted_insertionSort _ _
    exact List.Pairwise.map Prod.snd
      (fun a b hab => by
        unfold revLexLe at hab
        have ha := lengthInWindow_le start stop a.2.1
        have hb := lengthInWindow_le start stop b.2.1
        omega) hsorted
  · unfold usesStableSort
    split
    · simp_all
    · simp only [decide_eq_false_iff_not, Nat.not_le]
      constructor
      · intro h
        exact ⟨by assumption, h⟩
      · intro h
        exact h.2

theorem chunksOf_flatten (b : Nat) (l : List β) :
    (chunksOf b l).flatten = l := by
  have H : ∀ (n : Nat) (l : List β), l.length ≤ n →
      (chunksOf b l).flatten = l := by
    intro n
    induction n with
    | zero =>
      intro l hl
      have h0 : l = [] := by
        cases l
        · rfl
        · simp at hl
      subst h0
      rw [chunksOf]
      rfl
    | succ n ih =>
      intro l hl
      cases l with
      | nil =>
        rw [chunksOf]
        rfl
      | cons x xs =>
        rw [chunksOf]
        simp only [List.flatten_cons]
        rw [ih _ (by
          simp only [List.length_drop, List.length_cons]
          have h1 := Nat.le_max_right b 1
          simp only [List.length_cons] at hl
          omega)]
        exact List.take_append_drop _ _
  exact H l.length l (Nat.le_refl _)

theorem groupReqsAux_length (batch : List (Nat × Nat))
    (qs : List (List Nat)) :
    (batch.foldl (fun qs p => qs.set p.1 (qs.getD p.1 [] ++ [p.2]))
      qs).length = qs.length := by
  induction batch generalizing qs with
  | nil => rfl
  | cons p rest ih =>
    simp only [List.foldl_cons]
    rw [ih]
    simp

theorem groupReqsAux_getD (batch : List (Nat × Nat))
    (qs : List (List Nat)) (r : Nat)
    (hb : ∀ p ∈ batch, p.1 < qs.length) :
    (batch.foldl (fun qs p => qs.set p.1 (qs.getD p.1 [] ++ [p.2]))
      qs).getD r [] = qs.getD r [] ++ reqsOf r batch := by
  induction batch generalizing qs with
  | nil => simp [reqsOf]
  | cons p rest ih =>
    simp only [List.foldl_cons]
    have hp : p.1 < qs.length := hb p (List.mem_cons_self _ _)
    have hrest : ∀ q ∈ rest, q.1 <
        (qs.set p.1 (qs.getD p.1 [] ++ [p.2])).length := by
      intro q hq
      simp only [List.length_set]
      exact hb q (List.mem_cons_of_mem _ hq)
    rw [ih _ hrest]
    by_cases hr : p.1 = r
    · subst hr
      rw [getD_set_self_nil _ _ _ hp]
      simp only [reqsOf, List.filter_cons]
      simp
    · rw [getD_set_ne_nil _ _ _ _ hr]
      simp only [reqsOf, List.filter_cons]
      have : (p.1 == r) = false := by
        simp [hr]
      rw [this]
      simp

theorem replayBatch_congr (fetch : Nat → Nat → α) (from0 : List Nat)
    (qs1 qs2 : List (List Nat)) (hlen : qs1.length = qs2.length)
    (hext : ∀ r, qs1.getD r [] = qs2.getD r []) :
    replayBatch fetch qs1 from0 = replayBatch fetch qs2 from0 := by
  induction from0 generalizing qs1 qs2 with
  | nil => rfl
  | cons rr rest ih =>
    rw [replayBatch, replayBatch, hext rr]
    cases hq : qs2.getD rr [] with
    | nil => rfl
    | cons row rows =>
      have hnext : ∀ r, (qs1.set rr rows).getD r [] =
          (qs2.set rr rows).getD r [] := by
        intro r
        by_cases hr : rr = r
        · subst hr
          by_cases hin : rr < qs1.length
          · rw [getD_set_self_nil _ _ _ hin,
              getD_set_self_nil _ _ _ (by omega)]
          · have h1 : qs1.set rr rows = qs1 := by
              apply List.set_eq_of_length_le
              omega
            have h2 : qs2.set rr rows = qs2 := by
              apply List.set_eq_of_length_le
              omega
            rw [h1, h2]
            exact hext rr
        · rw [getD_set_ne_nil _ _ _ _ hr, getD_set_ne_nil _ _ _ _ hr]
          exact hext r
      have hres := ih (qs1.set rr rows) (qs2.set rr rows)
        (by simp [hlen]) hnext
      simpa using hres

theorem replayBatch_groupReqs (fetch : Nat → Nat → α)
    (batch : List (Nat × Nat)) (qs : List (List Nat))
    (hempty : ∀ q ∈ qs, q = [])
    (hb : ∀ p ∈ batch, p.1 < qs.length) :
    replayBatch fetch
      (batch.foldl (fun qs p => qs.set p.1 (qs.getD p.1 [] ++ [p.2])) qs)
      (batch.map Prod.fst) =
    batch.map fun p => fetch p.1 p.2 := by
  induction batch generalizing qs with
  | nil => rfl
  | cons p rest ih =>
    have hp : p.1 < qs.length := hb p (List.mem_cons_self _ _)
    have hq0 : qs.getD p.1 [] = [] := by
      by_cases hin : p.1 < qs.length
      · rw [List.getD_eq_getElem?_getD, List.getElem?_eq_getElem hin]
        exact hempty _ (List.getElem_mem hin)
      · omega
    simp only [List.foldl_cons, List.map_cons]
    have hrest : ∀ q ∈ rest, q.1 <
        (qs.set p.1 (qs.getD p.1 [] ++ [p.2])).length := by
      intro q hq
      simp only [List.length_set]
      exact hb q (List.mem_cons_of_mem _ hq)
    have hhead : (rest.foldl
        (fun qs p => qs.set p.1 (qs.getD p.1 [] ++ [p.2]))
        (qs.set p.1 (qs.getD p.1 [] ++ [p.2]))).getD p.1 [] =
        p.2 :: reqsOf p.1 rest := by
      rw [groupReqsAux_getD _ _ _ hrest, getD_set_self_nil _ _ _ hp, hq0]
      simp
    rw [replayBatch, hhead]
    show fetch p.1 p.2 :: replayBatch fetch
        ((rest.foldl (fun qs p => qs.set p.1 (qs.getD p.1 [] ++ [p.2]))
          (qs.set p.1 (qs.getD p.1 [] ++ [p.2]))).set p.1
            (reqsOf p.1 rest))
        (rest.map Prod.fst) =
      fetch p.1 p.2 :: (rest.map fun p => fetch p.1 p.2)
    have hstep : ∀ r, ((rest.foldl
        (fun qs p => qs.set p.1 (qs.getD p.1 [] ++ [p.2]))
        (qs.set p.1 (qs.getD p.1 [] ++ [p.2]))).set p.1
          (reqsOf p.1 rest)).getD r [] =
        (rest.foldl (fun qs p => qs.set p.1 (qs.getD p.1 [] ++ [p.2]))
          qs).getD r [] := by
      intro r
      have hlen1 : (rest.foldl
          (fun qs p => qs.set p.1 (qs.getD p.1 [] ++ [p.2]))
          (qs.set p.1 (qs.getD p.1 [] ++ [p.2]))).length = qs.length := by
        rw [groupReqsAux_length]
        simp
      by_cases hr : p.1 = r
      · subst hr
        rw [getD_set_self_nil _ _ _ (by omega)]
        rw [groupReqsAux_getD _ _ _ (by
          intro q hq
          exact hb q (List.mem_cons_of_mem _ hq)), hq0]
        simp
      · rw [getD_set_ne_nil _ _ _ _ hr]
        rw [groupReqsAux_getD _ _ _ hrest,
          groupReqsAux_getD _ _ _ (by
            intro q hq
            exact hb q (List.mem_cons_of_mem _ hq))]
        rw [getD_set_ne_nil _ _ _ _ hr]
    have hcong := replayBatch_congr fetch (rest.map Prod.fst)
      ((rest.foldl (fun qs p => qs.set p.1 (qs.getD p.1 [] ++ [p.2]))
        (qs.set p.1 (qs.getD p.1 [] ++ [p.2]))).set p.1
          (reqsOf p.1 rest))
      (rest.foldl (fun qs p => qs.set p.1 (qs.getD p.1 [] ++ [p.2])) qs)
      (by
        simp only [List.length_set]
        rw [groupReqsAux_length, groupReqsAux_length]
        simp)
      hstep
    rw [hcong]
    rw [ih qs hempty (by
      intro q hq
      exact hb q (List.mem_cons_of_mem _ hq))]

/-- C9: for every index-tuple list whose resource indices address one of
the `n` open readers and every `buffsize ≥ 1`, `_getRecords` yields
exactly the records at the requested positions in the original order; in
particular the buffered path coincides with the one-record-at-a-time
path. -/
theorem claim_C9 (fetch : Nat → Nat → α) (n : Nat)
    (indexList : List (Nat × Nat)) (buffsize : Nat)
    (_hb : 1 ≤ buffsize) (hn : ∀ p ∈ indexList, p.1 < n) :
    getRecords fetch n indexList buffsize =
      indexList.map (fun p => fetch p.1 p.2) ∧
    getRecords fetch n indexList buffsize =
      getRecords fetch n indexList 1 := by
  have hbuf : getRecordsBuffered fetch n buffsize indexList =
      indexList.map fun p => fetch p.1 p.2 := by
    unfold getRecordsBuffered
    have hbatches : ∀ batch ∈ chunksOf buffsize indexList,
        replayBatch fetch (groupReqs n batch) (batch.map Prod.fst) =
        batch.map fun p => fetch p.1 p.2 := by
      intro batch hbatch
      apply replayBatch_groupReqs
      · intro q hq
        exact List.eq_of_mem_replicate hq
      · intro p hp
        have hpl : p ∈ indexList := by
          rw [← chunksOf_flatten buffsize indexList]
          exact List.mem_flatten.mpr ⟨batch, hbatch, hp⟩
        simpa using hn p hpl
    rw [List.map_congr_left hbatches]
    rw [← List.map_flatten]
    rw [chunksOf_flatten]
  constructor
  · unfold getRecords
    split
    · rfl
    · exact hbuf
  · unfold getRecords
    split
    · rfl
    · simp only [if_pos rfl]
      exact hbuf

/-- C9, witness: the theorem applied at a concrete fetch function, two
readers and a three-request index list with buffer size 2. -/
theorem claim_C9_witness :
    getRecords (fun r c => 10 * r + c) 2 [(0, 5), (1, 7), (0, 6)] 2 =
      [5, 17, 6] ∧
    getRecords (fun r c => 10 * r + c) 2 [(0, 5), (1, 7), (0, 6)] 2 =
      getRecords (fun r c => 10 * r + c) 2 [(0, 5), (1, 7), (0, 6)] 1 := by
  have h := claim_C9 (fun r c => 10 * r + c) 2 [(0, 5), (1, 7), (0, 6)] 2
    (by decide) (by decide)
  constructor
  · rw [h.1]
    decide
  · exact h.2

/-- C6, witness: the theorem applied to a concrete two-resource DataSet
split into two chunks. -/
theorem claim_C6_witness :
    ((simpleDS "AlignmentSet" (some 1) none
      [{ resourceId := "a", size := 2 },
        { resourceId := "b", size := 1 }] []).split 2).length = 2 :=
  (claim_C6
    (simpleDS "AlignmentSet" (some 1) none
      [{ resourceId := "a", size := 2 },
        { resourceId := "b", size := 1 }] [])
    2 (by decide) (by decide)).1

end PbCore
